import Mathlib

/-!
Verification of the MLCryptoAnalyzer storage and encryption core.

This file is a shallow embedding, in Lean 4, of the record codec, the storage
backends and the encryption manager of the repository
(`src/datastore/datastore.py` and `src/encryption/encryption_manager.py`),
together with proofs of the behavioural properties stated in the
specification.

Bytes are modelled as `Nat` (with values below 256 wherever the source
guarantees it), byte strings as `List Nat`, records as association lists from
field names to values, and the random-byte source of the encryption manager
as an explicit supply function.
-/

namespace MLCrypto

/-! ## Byte-level primitives

`toBytesLE` models Python's `int.to_bytes(n, sys.byteorder)` and `fromBytesLE`
models `int.from_bytes(bs, sys.byteorder)`; the platform byte order is fixed
to little-endian.  `to_bytes` is only ever applied by the source to values
that fit in the requested width, where this model agrees with it exactly. -/

/-- `int.to_bytes(width, byteorder)`, little-endian, for values below
`256 ^ width`. -/
def toBytesLE : Nat → Nat → List Nat
  | 0, _ => []
  | w + 1, n => n % 256 :: toBytesLE w (n / 256)

/-- `int.from_bytes(bs, byteorder)`, little-endian. -/
def fromBytesLE : List Nat → Nat
  | [] => 0
  | b :: rest => b + 256 * fromBytesLE rest

/-- Python `bytearray` slice assignment `b[s : s + d.length] = d`: the slice
bounds are clipped to the current length, and the buffer grows when the
replacement is longer than the clipped slice. -/
def setSlice (b : List Nat) (s : Nat) (d : List Nat) : List Nat :=
  b.take s ++ d ++ b.drop (s + d.length)

/-! ## The record codec (`BinaryDatastore`) -/

/-- `BinaryDatastore.__MAX_RECORD_SIZE` (1024 * 1024). -/
def MAX_RECORD_SIZE : Nat := 1024 * 1024

/-- `BinaryDatastore.__LEN_FIELD_SIZE`. -/
def LEN_FIELD_SIZE : Nat := 4

/-- A record field value: UTF-8 text (`str`) or raw binary (`bytes`). -/
inductive FieldValue where
  | text (s : String)
  | binary (b : List Nat)
  deriving DecidableEq

/-- The byte payload a value contributes: text values are promoted to their
UTF-8 bytes (`bytes(field_data, encoding="UTF-8")`). -/
def FieldValue.toBytes : FieldValue → List Nat
  | .text s => (s.data.flatMap String.utf8EncodeChar).map (fun b => b.toNat)
  | .binary b => b

/-- A record, as the source's `dict`: an association list from field names to
values (keys looked up with `List.lookup`). -/
abbrev Record := List (String × FieldValue)

/-- One step of `BinaryDatastore.__record_data_to_bin`'s loop body, acting on
the `(buffer, index)` state for one schema field. -/
def encodeStep (record : Record) (st : List Nat × Nat) (field : String) :
    List Nat × Nat :=
  match record.lookup field with
  | some v =>
      let fd := v.toBytes
      let r1 := setSlice st.1 st.2 (toBytesLE LEN_FIELD_SIZE fd.length)
      let i1 := st.2 + LEN_FIELD_SIZE
      (setSlice r1 i1 fd, i1 + fd.length)
  | none =>
      (setSlice st.1 st.2 (toBytesLE LEN_FIELD_SIZE 0), st.2 + LEN_FIELD_SIZE)

/-- `BinaryDatastore.__record_data_to_bin`: fold the per-field step over the
schema starting from a preallocated zero buffer of `__MAX_RECORD_SIZE` bytes,
then return `result[0:index]`. -/
def record_data_to_bin (object_fields : List String) (record : Record) :
    List Nat :=
  let st := object_fields.foldl (encodeStep record)
    (List.replicate MAX_RECORD_SIZE 0, 0)
  st.1.take st.2

/-- The bytes one schema field contributes to the encoding: a 4-byte length
header followed by the payload (absent fields contribute a zero header). -/
def fieldChunk (record : Record) (field : String) : List Nat :=
  match record.lookup field with
  | some v => toBytesLE LEN_FIELD_SIZE v.toBytes.length ++ v.toBytes
  | none => toBytesLE LEN_FIELD_SIZE 0

/-- The payload bytes the encoder writes for one field: the (promoted) value
when the field is present, nothing when it is absent. -/
def fieldBytes (record : Record) (field : String) : List Nat :=
  match record.lookup field with
  | some v => v.toBytes
  | none => []

/-- Remove a field from a record (Python `del record[field]`). -/
def eraseField (record : Record) (field : String) : Record :=
  record.filter (fun kv => kv.1 != field)

/-- One step of `BinaryDatastore.__bin_to_record_data`'s loop body on the
`(result, index)` state: read a 4-byte size header (Python slices clip at the
end of the buffer), then, when the size is positive, the payload. -/
def decodeStep (bin : List Nat) (st : List (String × List Nat) × Nat)
    (field : String) : List (String × List Nat) × Nat :=
  let fs := fromBytesLE ((bin.drop st.2).take LEN_FIELD_SIZE)
  let i1 := st.2 + LEN_FIELD_SIZE
  if fs > 0 then
    (st.1 ++ [(field, (bin.drop i1).take fs)], i1 + fs)
  else
    (st.1, i1)

/-- `BinaryDatastore.__bin_to_record_data`: fold the per-field step over the
schema and return the accumulated dictionary. -/
def bin_to_record_data (object_fields : List String) (bin : List Nat) :
    List (String × List Nat) :=
  (object_fields.foldl (decodeStep bin) ([], 0)).1

/-! ## The outer frame (`BinaryDatastore.write_record` / `read_next_record`)
over the file medium (`FileDatastore`) -/

/-- The bytes `BinaryDatastore.write_record` emits for one record: a 4-byte
total length followed by the encoded payload. -/
def writeRecordBytes (object_fields : List String) (record : Record) :
    List Nat :=
  let bin := record_data_to_bin object_fields record
  toBytesLE LEN_FIELD_SIZE bin.length ++ bin

/-- `FileDatastore.read_internal` on a stream with a read position: the
accumulation loop returns exactly the requested bytes, or whatever remains at
end of file (never `None`). -/
def read_internal (stream : List Nat) (pos readLen : Nat) : List Nat × Nat :=
  ((stream.drop pos).take readLen, pos + min readLen (stream.length - pos))

/-- Outcome of one `read_next_record` call: end-of-stream (`None` in the
source), a corruption error (an exception in the source), or a decoded
record. -/
inductive ReadResult where
  | endOfStream
  | corruption
  | record (r : List (String × List Nat))
  deriving DecidableEq

/-- `BinaryDatastore.read_next_record` over the file medium: read a 4-byte
size header (zero bytes obtained is end-of-stream, 1-3 is corruption), then
read exactly the decoded number of payload bytes (a short read is
corruption), then decode. -/
def read_next_record (object_fields : List String) (stream : List Nat)
    (pos : Nat) : ReadResult × Nat :=
  let h := read_internal stream pos LEN_FIELD_SIZE
  if h.1.length = 0 then (.endOfStream, h.2)
  else if h.1.length < LEN_FIELD_SIZE then (.corruption, h.2)
  else
    let record_size := fromBytesLE h.1
    let b := read_internal stream h.2 record_size
    if b.1.length ≠ record_size then (.corruption, b.2)
    else (.record (bin_to_record_data object_fields b.1), b.2)

/-- Iterate `read_next_record` a given number of times, collecting the
outcomes (the loop inside `read_all`). -/
def readN (object_fields : List String) (stream : List Nat) :
    Nat → Nat → List ReadResult × Nat
  | pos, 0 => ([], pos)
  | pos, n + 1 =>
    let r := read_next_record object_fields stream pos
    let rest := readN object_fields stream r.2 n
    (r.1 :: rest.1, rest.2)

/-- The byte stream produced by writing a list of records in order. -/
def file_write_all (object_fields : List String) (records : List Record) :
    List Nat :=
  (records.map (writeRecordBytes object_fields)).flatten

/-! ## `FileDatastore` write-side state (for the autoflush policy) -/

/-- Observable write-side state of a `FileDatastore`: the bytes handed to the
file handle, the `__num_records` counter (which counts `write_internal`
calls), and how many automatic flushes have fired. -/
structure FileWriteState where
  out : List Nat
  num_records : Nat
  flushes : Nat
  deriving DecidableEq

/-- The state of a freshly opened `FileDatastore`. -/
def initFileWriteState : FileWriteState := ⟨[], 0, 0⟩

/-- `FileDatastore.write_internal`: write the bytes, bump the counter, and
flush when an autoflush threshold is configured and the counter is a multiple
of it. -/
def write_internal (autoflush : Nat) (st : FileWriteState) (data : List Nat) :
    FileWriteState :=
  let n := st.num_records + 1
  { out := st.out ++ data
    num_records := n
    flushes :=
      if 0 < autoflush ∧ n % autoflush = 0 then st.flushes + 1 else st.flushes }

/-- `BinaryDatastore.write_record` on a `FileDatastore`: two `write_internal`
calls, one for the 4-byte size header and one for the payload. -/
def file_write_record (object_fields : List String) (autoflush : Nat)
    (st : FileWriteState) (record : Record) : FileWriteState :=
  let bin := record_data_to_bin object_fields record
  write_internal autoflush
    (write_internal autoflush st (toBytesLE LEN_FIELD_SIZE bin.length)) bin

/-- Write a list of records through `write_record`. -/
def file_write_records (object_fields : List String) (autoflush : Nat)
    (st : FileWriteState) (records : List Record) : FileWriteState :=
  records.foldl (file_write_record object_fields autoflush) st

/-! ## `InMemDatastore`

`__data` is a class attribute: one `queue.Queue` object shared by every
instance.  `__num_of_records_left` is read from the class attribute but
assigned through `self`, so it is tracked per instance.  The world therefore
holds one shared queue and a per-instance counter map. -/

/-- The shared state of all `InMemDatastore` instances: the class-level FIFO
queue and each instance's `__num_of_records_left`. -/
structure InMemWorld (α : Type) where
  data : List α
  counts : Nat → Nat

/-- The world before any instance has written. -/
def initInMemWorld (α : Type) : InMemWorld α := ⟨[], fun _ => 0⟩

/-- Outcome of `InMemDatastore.read_next_record`: `None` (end of stream), a
record, or a blocked `queue.get()` call on an empty shared queue. -/
inductive ReadOut (α : Type) where
  | eos
  | blocked
  | got (r : α)
  deriving DecidableEq

/-- `InMemDatastore.write_record` by instance `i`: enqueue on the shared
queue and bump instance `i`'s pending count. -/
def inmem_write {α : Type} (w : InMemWorld α) (i : Nat) (r : α) :
    InMemWorld α :=
  ⟨w.data ++ [r], Function.update w.counts i (w.counts i + 1)⟩

/-- `InMemDatastore.read_next_record` by instance `i`: `None` when instance
`i`'s count is 0, otherwise dequeue from the shared queue and decrement the
count (`queue.get()` blocks if the shared queue is empty). -/
def inmem_read {α : Type} (w : InMemWorld α) (i : Nat) :
    ReadOut α × InMemWorld α :=
  if w.counts i = 0 then (.eos, w)
  else
    match w.data with
    | [] => (.blocked, w)
    | r :: rest =>
      (.got r, ⟨rest, Function.update w.counts i (w.counts i - 1)⟩)

/-- `InMemDatastore.has_more_records` for instance `i`. -/
def inmem_has_more {α : Type} (w : InMemWorld α) (i : Nat) : Bool :=
  w.counts i > 0

/-- `InMemDatastore.pending_num_of_records` for instance `i`. -/
def inmem_pending {α : Type} (w : InMemWorld α) (i : Nat) : Nat :=
  w.counts i

/-- Write a list of records through instance `i`. -/
def inmem_write_list {α : Type} (w : InMemWorld α) (i : Nat) (rs : List α) :
    InMemWorld α :=
  rs.foldl (fun w r => inmem_write w i r) w

/-- Read `n` times through instance `i`, collecting the outcomes. -/
def inmem_reads {α : Type} (i : Nat) :
    InMemWorld α → Nat → List (ReadOut α) × InMemWorld α
  | w, 0 => ([], w)
  | w, n + 1 =>
    let r := inmem_read w i
    let rest := inmem_reads i r.2 n
    (r.1 :: rest.1, rest.2)

/-! ## `SplitFilesDatastore` -/

/-- The shard file name `SplitFilesDatastore.write_record` builds for a
1-based batch number: directory, `"/"`, name head, the batch number, name
tail. -/
def shardName (dir pre post : String) (batch : Nat) : String :=
  dir ++ "/" ++ pre ++ toString batch ++ post

/-- Observable state of a `SplitFilesDatastore`: the running record index,
the currently open `FileDatastore` (shard name and records written to it),
and the shards closed so far, in closing order. -/
structure SplitState where
  curr_index : Nat
  openShard : Option (String × Nat)
  closedShards : List (String × Nat)
  deriving DecidableEq

/-- The state of a fresh `SplitFilesDatastore`. -/
def initSplitState : SplitState := ⟨0, none, []⟩

/-- `SplitFilesDatastore.write_record`: when `curr_index % S == 0`, close the
previously open shard (if any) and open a new one named from the 1-based
batch number `1 + curr_index / S`; then delegate the write to the open shard
and advance the index. -/
def split_write_record (S : Nat) (dir pre post : String) (st : SplitState) :
    SplitState :=
  if st.curr_index % S = 0 then
    { curr_index := st.curr_index + 1
      openShard := some (shardName dir pre post (1 + st.curr_index / S), 1)
      closedShards :=
        match st.openShard with
        | some f => st.closedShards ++ [f]
        | none => st.closedShards }
  else
    { curr_index := st.curr_index + 1
      openShard :=
        match st.openShard with
        | some f => some (f.1, f.2 + 1)
        | none => none
      closedShards := st.closedShards }

/-- Write `k` records to a `SplitFilesDatastore`. -/
def split_write_records (S : Nat) (dir pre post : String) (st : SplitState) :
    Nat → SplitState
  | 0 => st
  | k + 1 => split_write_record S dir pre post
      (split_write_records S dir pre post st k)

/-- All shard files in existence after a run: the closed ones followed by the
one still open, each with its record count. -/
def allShards (st : SplitState) : List (String × Nat) :=
  st.closedShards ++ (match st.openShard with
    | some f => [f]
    | none => [])

/-! ## Stream ciphers (`SimpleShiftCipher` / `SimpleXorCipher`) -/

/-- The key byte combined with position `index`:
`key[index % len(key)]`. -/
def cycleKey (key : List Nat) (index : Nat) : Nat :=
  key.getD (index % key.length) 0

/-- `SimpleShiftCipher.encrypt`: per-byte
`(plaintext[index] + key[index % len(key)]) & 0xFF`. -/
def shift_encrypt (key plaintext : List Nat) : List Nat :=
  plaintext.mapIdx (fun index b => (b + cycleKey key index) % 256)

/-- `SimpleShiftCipher.decrypt`: per-byte
`(ciphertext[index] - key[index % len(key)]) & 0xFF` (Python subtraction may
go negative before the mask, hence the computation over `Int`). -/
def shift_decrypt (key ciphertext : List Nat) : List Nat :=
  ciphertext.mapIdx
    (fun (index b : Nat) =>
      (((b : Int) - (cycleKey key index : Int)) % 256).toNat)

/-- `SimpleXorCipher.encrypt`: per-byte
`plaintext[index] ^ key[index % len(key)]`. -/
def xor_encrypt (key plaintext : List Nat) : List Nat :=
  plaintext.mapIdx (fun index b => b ^^^ cycleKey key index)

/-- `SimpleXorCipher.decrypt`: the same per-byte exclusive-or. -/
def xor_decrypt (key ciphertext : List Nat) : List Nat :=
  ciphertext.mapIdx (fun index b => b ^^^ cycleKey key index)

/-! ## Padding and the `EncryptionManager` -/

/-- `Crypto.Util.Padding.pad` (PKCS#7 style): append
`block_size - len(data) % block_size` copies of that same value. -/
def pad (data : List Nat) (block_size : Nat) : List Nat :=
  let padding_len := block_size - data.length % block_size
  data ++ List.replicate padding_len padding_len

/-- `Crypto.Util.Padding.unpad`: validate the padding and strip it;
`none` models the `ValueError` paths.  `data.getLast?.getD 0` is the
`padding_len` the source reads from the final byte. -/
def unpad (data : List Nat) (block_size : Nat) : Option (List Nat) :=
  if data.length = 0 then none
  else if data.length % block_size ≠ 0 then none
  else if data.getLast?.getD 0 < 1 ∨
      data.getLast?.getD 0 > min block_size data.length then none
  else if data.drop (data.length - data.getLast?.getD 0) ≠
      List.replicate (data.getLast?.getD 0) (data.getLast?.getD 0) then none
  else some (data.take (data.length - data.getLast?.getD 0))

/-- An underlying cipher primitive as `EncryptionManager.__create_cipher`
returns it: an encrypt and a decrypt map over byte strings.  For the block
methods (AES, DES, DES3) the primitive lives in the external pycryptodome
library and is kept abstract; the stream methods instantiate it with
`shift_encrypt`/`shift_decrypt` and `xor_encrypt`/`xor_decrypt`. -/
structure Cipher where
  enc : List Nat → List Nat
  dec : List Nat → List Nat

/-- `EncryptionManager.encrypt` (ciphertext component): pad the plaintext to
the block size, then apply the primitive. -/
def manager_encrypt (c : Cipher) (block_size : Nat) (plaintext : List Nat) :
    List Nat :=
  c.enc (pad plaintext block_size)

/-- `EncryptionManager.decrypt`: apply the primitive's inverse, then unpad. -/
def manager_decrypt (c : Cipher) (block_size : Nat) (ciphertext : List Nat) :
    Option (List Nat) :=
  unpad (c.dec ciphertext) block_size

/-- The `SimpleShiftCipher` primitive for a key. -/
def shiftCipher (key : List Nat) : Cipher :=
  ⟨shift_encrypt key, shift_decrypt key⟩

/-- The `SimpleXorCipher` primitive for a key. -/
def xorCipher (key : List Nat) : Cipher :=
  ⟨xor_encrypt key, xor_decrypt key⟩

/-! ## `EncryptionManager` key lifecycle

`get_random_bytes` is modelled by an explicit supply: `supply d` is the value
of the `d`-th random draw the process makes. -/

/-- Key-lifecycle state of an `EncryptionManager`:
`__randomize_key_on_every_encryption`, `__encryption_key`, and how many
random draws have happened. -/
structure EMState where
  randomize : Bool
  key : List Nat
  draws : Nat
  deriving DecidableEq

/-- `EncryptionManager.__init__`: with a fixed key, store it and never
randomize; without one, enter rotating mode and draw the first random key
immediately. -/
def em_init (supply : Nat → List Nat) (fixed : Option (List Nat)) : EMState :=
  match fixed with
  | some k => ⟨false, k, 0⟩
  | none => ⟨true, supply 0, 1⟩

/-- The key-lifecycle effect of one `EncryptionManager.encrypt` call: the
cipher is created from the current key (returned as the key used), and in
rotating mode the next key is drawn afterwards. -/
def em_encrypt (supply : Nat → List Nat) (st : EMState) : EMState × List Nat :=
  (if st.randomize then ⟨st.randomize, supply st.draws, st.draws + 1⟩ else st,
   st.key)

/-- `EncryptionManager.get_key`: the key the next encryption will use. -/
def em_get_key (st : EMState) : List Nat := st.key

/-- The manager state after `n` further `encrypt` calls. -/
def em_encryptN (supply : Nat → List Nat) (st : EMState) : Nat → EMState
  | 0 => st
  | n + 1 => (em_encrypt supply (em_encryptN supply st n)).1

/-! ## Byte-level lemmas -/

theorem toBytesLE_length (w n : Nat) : (toBytesLE w n).length = w := by
  induction w generalizing n with
  | zero => rfl
  | succ w ih => simp [toBytesLE, ih]

theorem fromBytesLE_toBytesLE (w n : Nat) :
    fromBytesLE (toBytesLE w n) = n % 256 ^ w := by
  induction w generalizing n with
  | zero => simp [toBytesLE, fromBytesLE, Nat.mod_one]
  | succ w ih =>
    simp only [toBytesLE, fromBytesLE, ih]
    rw [pow_succ, mul_comm (256 ^ w) 256, Nat.mod_mul]

theorem setSlice_length (b : List Nat) (s : Nat) (d : List Nat)
    (h : s ≤ b.length) : (setSlice b s d).length = max b.length (s + d.length) := by
  simp only [setSlice, List.length_append, List.length_take, List.length_drop]
  omega

theorem setSlice_take (b : List Nat) (s : Nat) (d : List Nat)
    (h : s ≤ b.length) : (setSlice b s d).take (s + d.length) = b.take s ++ d := by
  have hlen : (b.take s ++ d).length = s + d.length := by
    simp only [List.length_append, List.length_take]
    omega
  exact List.take_left' hlen

/-! ## The encoder writes every field in full

`__record_data_to_bin` preallocates a `__MAX_RECORD_SIZE` buffer, but Python
`bytearray` slice assignment grows the buffer when the assigned range runs
past its end, so the fold below always produces the complete concatenation of
the per-field chunks, whatever the total size. -/

theorem fieldChunk_eq (record : Record) (f : String) :
    fieldChunk record f =
      toBytesLE LEN_FIELD_SIZE (fieldBytes record f).length ++
        fieldBytes record f := by
  cases h : record.lookup f <;> simp [fieldChunk, fieldBytes, h]

theorem encode_foldl_spec (record : Record) (fields : List String) :
    ∀ (buf : List Nat) (idx : Nat), idx ≤ buf.length →
      (fields.foldl (encodeStep record) (buf, idx)).2 ≤
          (fields.foldl (encodeStep record) (buf, idx)).1.length ∧
      (fields.foldl (encodeStep record) (buf, idx)).1.take
          (fields.foldl (encodeStep record) (buf, idx)).2 =
        buf.take idx ++ (fields.map (fieldChunk record)).flatten := by
  induction fields with
  | nil => intro buf idx h; simpa using h
  | cons f fs ih =>
    intro buf idx h
    simp only [List.foldl_cons, List.map_cons, List.flatten_cons]
    cases hl : record.lookup f with
    | some v =>
      have hstep : encodeStep record (buf, idx) f =
          (setSlice (setSlice buf idx (toBytesLE LEN_FIELD_SIZE v.toBytes.length))
            (idx + LEN_FIELD_SIZE) v.toBytes,
           idx + LEN_FIELD_SIZE + v.toBytes.length) := by
        simp [encodeStep, hl]
      set hdr := toBytesLE LEN_FIELD_SIZE v.toBytes.length with hhdr
      have hhdrlen : hdr.length = LEN_FIELD_SIZE := toBytesLE_length _ _
      set r1 := setSlice buf idx hdr with hr1
      have hlen1 : r1.length = max buf.length (idx + LEN_FIELD_SIZE) := by
        rw [hr1, setSlice_length buf idx hdr h, hhdrlen]
      have h1 : idx + LEN_FIELD_SIZE ≤ r1.length := by omega
      set r2 := setSlice r1 (idx + LEN_FIELD_SIZE) v.toBytes with hr2
      have hlen2 : r2.length =
          max r1.length (idx + LEN_FIELD_SIZE + v.toBytes.length) := by
        rw [hr2, setSlice_length r1 _ _ h1]
      have h2 : idx + LEN_FIELD_SIZE + v.toBytes.length ≤ r2.length := by omega
      have htake2 : r2.take (idx + LEN_FIELD_SIZE + v.toBytes.length) =
          buf.take idx ++ (hdr ++ v.toBytes) := by
        rw [hr2, setSlice_take r1 _ _ h1, hr1]
        have := setSlice_take buf idx hdr h
        rw [hhdrlen] at this
        rw [this, List.append_assoc]
      obtain ⟨ihle, iheq⟩ := ih r2 (idx + LEN_FIELD_SIZE + v.toBytes.length) h2
      rw [hstep]
      refine ⟨ihle, ?_⟩
      rw [iheq, htake2]
      have hchunk : fieldChunk record f = hdr ++ v.toBytes := by
        simp [fieldChunk, hl, hhdr]
      rw [hchunk, List.append_assoc]
    | none =>
      have hstep : encodeStep record (buf, idx) f =
          (setSlice buf idx (toBytesLE LEN_FIELD_SIZE 0),
           idx + LEN_FIELD_SIZE) := by
        simp [encodeStep, hl]
      set hdr := toBytesLE LEN_FIELD_SIZE 0 with hhdr
      have hhdrlen : hdr.length = LEN_FIELD_SIZE := toBytesLE_length _ _
      set r1 := setSlice buf idx hdr with hr1
      have hlen1 : r1.length = max buf.length (idx + LEN_FIELD_SIZE) := by
        rw [hr1, setSlice_length buf idx hdr h, hhdrlen]
      have h1 : idx + LEN_FIELD_SIZE ≤ r1.length := by omega
      have htake1 : r1.take (idx + LEN_FIELD_SIZE) = buf.take idx ++ hdr := by
        have := setSlice_take buf idx hdr h
        rw [hhdrlen] at this
        rw [hr1, this]
      obtain ⟨ihle, iheq⟩ := ih r1 (idx + LEN_FIELD_SIZE) h1
      rw [hstep]
      refine ⟨ihle, ?_⟩
      rw [iheq, htake1]
      have hchunk : fieldChunk record f = hdr := by
        simp [fieldChunk, hl, hhdr]
      rw [hchunk, List.append_assoc]

theorem record_data_to_bin_eq (fields : List String) (record : Record) :
    record_data_to_bin fields record =
      (fields.map (fieldChunk record)).flatten := by
  have h := encode_foldl_spec record fields (List.replicate MAX_RECORD_SIZE 0) 0
    (by simp)
  simpa [record_data_to_bin] using h.2

/-! ## Decoder lemmas -/

theorem decode_foldl_acc (bin : List Nat) (fields : List String) :
    ∀ (res : List (String × List Nat)) (idx : Nat),
      fields.foldl (decodeStep bin) (res, idx) =
        (res ++ (fields.foldl (decodeStep bin) ([], idx)).1,
         (fields.foldl (decodeStep bin) ([], idx)).2) := by
  induction fields with
  | nil => intro res idx; simp
  | cons f fs ih =>
    intro res idx
    simp only [List.foldl_cons]
    by_cases hfs : fromBytesLE ((bin.drop idx).take LEN_FIELD_SIZE) > 0
    · have h1 : decodeStep bin (res, idx) f =
          (res ++ [(f, (bin.drop (idx + LEN_FIELD_SIZE)).take
              (fromBytesLE ((bin.drop idx).take LEN_FIELD_SIZE)))],
           idx + LEN_FIELD_SIZE +
             fromBytesLE ((bin.drop idx).take LEN_FIELD_SIZE)) := by
        simp [decodeStep, hfs]
      have h2 : decodeStep bin (([] : List (String × List Nat)), idx) f =
          ([(f, (bin.drop (idx + LEN_FIELD_SIZE)).take
              (fromBytesLE ((bin.drop idx).take LEN_FIELD_SIZE)))],
           idx + LEN_FIELD_SIZE +
             fromBytesLE ((bin.drop idx).take LEN_FIELD_SIZE)) := by
        simp [decodeStep, hfs]
      rw [h1, h2, ih, ih [(f, _)]]
      simp
    · have h1 : decodeStep bin (res, idx) f = (res, idx + LEN_FIELD_SIZE) := by
        simp [decodeStep, hfs]
      have h2 : decodeStep bin (([] : List (String × List Nat)), idx) f =
          ([], idx + LEN_FIELD_SIZE) := by
        simp [decodeStep, hfs]
      rw [h1, h2]
      exact ih res (idx + LEN_FIELD_SIZE)

theorem decode_foldl_shift (pre bin : List Nat) (fields : List String) :
    ∀ (res : List (String × List Nat)) (k : Nat),
      fields.foldl (decodeStep (pre ++ bin)) (res, pre.length + k) =
        ((fields.foldl (decodeStep bin) (res, k)).1,
         pre.length + (fields.foldl (decodeStep bin) (res, k)).2) := by
  induction fields with
  | nil => intro res k; rfl
  | cons f fs ih =>
    intro res k
    simp only [List.foldl_cons]
    have hdrop : ∀ j : Nat, (pre ++ bin).drop (pre.length + j) = bin.drop j :=
      fun j => List.drop_append j
    have hstep : decodeStep (pre ++ bin) (res, pre.length + k) f =
        (((decodeStep bin (res, k) f).1),
         pre.length + (decodeStep bin (res, k) f).2) := by
      simp only [decodeStep, hdrop, Nat.add_assoc]
      split <;> rfl
    rw [hstep]
    have := ih (decodeStep bin (res, k) f).1 (decodeStep bin (res, k) f).2
    simpa using this

theorem decodeStep_eq (bin : List Nat) (res : List (String × List Nat))
    (idx : Nat) (f : String) :
    decodeStep bin (res, idx) f =
      if fromBytesLE ((bin.drop idx).take LEN_FIELD_SIZE) > 0 then
        (res ++ [(f, (bin.drop (idx + LEN_FIELD_SIZE)).take
            (fromBytesLE ((bin.drop idx).take LEN_FIELD_SIZE)))],
         idx + LEN_FIELD_SIZE + fromBytesLE ((bin.drop idx).take LEN_FIELD_SIZE))
      else (res, idx + LEN_FIELD_SIZE) := rfl

theorem decode_encode_chunks (record : Record) :
    ∀ (fields : List String),
      (∀ f ∈ fields, (fieldBytes record f).length < 256 ^ LEN_FIELD_SIZE) →
      bin_to_record_data fields ((fields.map (fieldChunk record)).flatten) =
        fields.filterMap (fun f =>
          if fieldBytes record f = [] then none
          else some (f, fieldBytes record f)) := by
  intro fields
  induction fields with
  | nil => intro _; rfl
  | cons f fs ih =>
    intro hsz
    have hszf : (fieldBytes record f).length < 256 ^ LEN_FIELD_SIZE :=
      hsz f (List.mem_cons_self f fs)
    have hszfs : ∀ g ∈ fs, (fieldBytes record g).length < 256 ^ LEN_FIELD_SIZE :=
      fun g hg => hsz g (List.mem_cons_of_mem f hg)
    have hprelen :
        (toBytesLE LEN_FIELD_SIZE (fieldBytes record f).length ++
          fieldBytes record f).length =
          LEN_FIELD_SIZE + (fieldBytes record f).length := by
      simp [toBytesLE_length]
    have hstream : ((f :: fs).map (fieldChunk record)).flatten =
        (toBytesLE LEN_FIELD_SIZE (fieldBytes record f).length ++
          fieldBytes record f) ++ (fs.map (fieldChunk record)).flatten := by
      simp only [List.map_cons, List.flatten_cons, fieldChunk_eq]
    set rest := (fs.map (fieldChunk record)).flatten with hrest
    set pre := toBytesLE LEN_FIELD_SIZE (fieldBytes record f).length ++
      fieldBytes record f with hpre
    have hsizehdr : fromBytesLE (((pre ++ rest).drop 0).take LEN_FIELD_SIZE) =
        (fieldBytes record f).length := by
      rw [List.drop_zero, hpre, List.append_assoc,
        List.take_left' (toBytesLE_length _ _), fromBytesLE_toBytesLE,
        Nat.mod_eq_of_lt hszf]
    have hdata : ((pre ++ rest).drop (0 + LEN_FIELD_SIZE)).take
        (fieldBytes record f).length = fieldBytes record f := by
      rw [Nat.zero_add, hpre, List.append_assoc,
        List.drop_left' (toBytesLE_length _ _)]
      exact List.take_left' rfl
    have hstep : decodeStep (pre ++ rest) (([] : List (String × List Nat)), 0) f =
        ((if fieldBytes record f = [] then [] else [(f, fieldBytes record f)]),
         pre.length) := by
      rw [decodeStep_eq, hsizehdr, hdata]
      by_cases hempty : fieldBytes record f = []
      · simp [hempty, hprelen]
      · have hpos : (fieldBytes record f).length > 0 :=
          List.length_pos.mpr hempty
        simp [hempty, hpos, hprelen]
    unfold bin_to_record_data
    rw [hstream]
    simp only [List.foldl_cons, hstep]
    have hshift := decode_foldl_shift pre rest fs
      (if fieldBytes record f = [] then [] else [(f, fieldBytes record f)]) 0
    rw [Nat.add_zero] at hshift
    rw [hshift]
    have hacc := decode_foldl_acc rest fs
      (if fieldBytes record f = [] then [] else [(f, fieldBytes record f)]) 0
    rw [hacc]
    have ihr := ih hszfs
    unfold bin_to_record_data at ihr
    rw [List.filterMap_cons]
    by_cases hempty : fieldBytes record f = []
    · simp only [hempty, if_pos rfl, List.nil_append]
      simpa [hempty] using ihr
    · simp only [if_neg hempty]
      rw [ihr]
      simp [hempty]

theorem decoded_record_eq (fields : List String) (record : Record)
    (hsz : ∀ f ∈ fields, (fieldBytes record f).length < 256 ^ LEN_FIELD_SIZE) :
    bin_to_record_data fields (record_data_to_bin fields record) =
      fields.filterMap (fun f =>
        if fieldBytes record f = [] then none
        else some (f, fieldBytes record f)) := by
  rw [record_data_to_bin_eq]
  exact decode_encode_chunks record fields hsz

theorem encoded_length_eq (fields : List String) (record : Record) :
    (record_data_to_bin fields record).length =
      (fields.map (fun f => LEN_FIELD_SIZE + (fieldBytes record f).length)).sum := by
  rw [record_data_to_bin_eq, List.length_flatten, List.map_map]
  congr 1
  refine List.map_congr_left (fun f _ => ?_)
  simp [Function.comp, fieldChunk_eq, toBytesLE_length]

theorem fieldBytes_lt_of_encoded_lt (fields : List String) (record : Record)
    (f : String) (hf : f ∈ fields)
    (hsz : (record_data_to_bin fields record).length < MAX_RECORD_SIZE) :
    (fieldBytes record f).length < 256 ^ LEN_FIELD_SIZE := by
  have hmem : LEN_FIELD_SIZE + (fieldBytes record f).length ∈
      fields.map (fun g => LEN_FIELD_SIZE + (fieldBytes record g).length) :=
    List.mem_map_of_mem _ hf
  have hle := List.single_le_sum (l := fields.map
      (fun g => LEN_FIELD_SIZE + (fieldBytes record g).length))
    (fun x _ => Nat.zero_le x) _ hmem
  rw [encoded_length_eq] at hsz
  have hbig : MAX_RECORD_SIZE < 256 ^ LEN_FIELD_SIZE := by
    norm_num [MAX_RECORD_SIZE, LEN_FIELD_SIZE]
  omega

/-! ## Association-list lookup helpers -/

theorem lookup_eq_none_of_forall {β : Type} (l : List (String × β)) (f : String)
    (h : ∀ p ∈ l, p.1 ≠ f) : l.lookup f = none := by
  induction l with
  | nil => rfl
  | cons p rest ih =>
    obtain ⟨k, v⟩ := p
    have hk : k ≠ f := h (k, v) (List.mem_cons_self _ _)
    have hbe : (f == k) = false := by
      simp only [beq_eq_false_iff_ne, ne_eq]
      exact fun he => hk he.symm
    rw [List.lookup_cons, hbe]
    exact ih (fun q hq => h q (List.mem_cons_of_mem _ hq))

theorem lookup_eq_some_mem {β : Type} (l : List (String × β)) (f : String)
    (w : β) (h : l.lookup f = some w) : (f, w) ∈ l := by
  induction l with
  | nil => simp [List.lookup] at h
  | cons p rest ih =>
    obtain ⟨k, v⟩ := p
    rw [List.lookup_cons] at h
    split at h
    · next heq =>
      have : f = k := eq_of_beq heq
      cases h
      subst this
      exact List.mem_cons_self _ _
    · exact List.mem_cons_of_mem _ (ih h)

/-! ## Outer-frame reading lemmas -/

theorem read_next_record_eos (fields : List String) (stream : List Nat)
    (pos : Nat) (h : stream.length ≤ pos) :
    read_next_record fields stream pos = (.endOfStream, pos) := by
  have hdrop : stream.drop pos = [] := List.drop_eq_nil_of_le h
  simp [read_next_record, read_internal, hdrop, Nat.sub_eq_zero_of_le h]

theorem read_next_record_frame (fields : List String) (record : Record)
    (pre rest : List Nat)
    (hsz : (record_data_to_bin fields record).length < 256 ^ LEN_FIELD_SIZE) :
    read_next_record fields
        (pre ++ (writeRecordBytes fields record ++ rest)) pre.length =
      (.record (bin_to_record_data fields (record_data_to_bin fields record)),
       pre.length + (writeRecordBytes fields record).length) := by
  set enc := record_data_to_bin fields record with henc
  set hdr := toBytesLE LEN_FIELD_SIZE enc.length with hhdr
  have hhdrlen : hdr.length = LEN_FIELD_SIZE := toBytesLE_length _ _
  have hframe : writeRecordBytes fields record = hdr ++ enc := rfl
  set stream := pre ++ (writeRecordBytes fields record ++ rest) with hstream
  have hassoc : stream = pre ++ (hdr ++ (enc ++ rest)) := by
    rw [hstream, hframe, List.append_assoc]
  have hstreamlen : stream.length =
      pre.length + (LEN_FIELD_SIZE + (enc.length + rest.length)) := by
    rw [hassoc]; simp [hhdrlen]
  have hdrop1 : stream.drop pre.length = hdr ++ (enc ++ rest) := by
    rw [hassoc]; exact List.drop_left _ _
  have htake1 : (stream.drop pre.length).take LEN_FIELD_SIZE = hdr := by
    rw [hdrop1]; exact List.take_left' hhdrlen
  have hdrop2 : stream.drop (pre.length + LEN_FIELD_SIZE) = enc ++ rest := by
    rw [hassoc, List.drop_append, List.drop_left' hhdrlen]
  have htake2 : (stream.drop (pre.length + LEN_FIELD_SIZE)).take enc.length =
      enc := by
    rw [hdrop2]; exact List.take_left' rfl
  have hfb : fromBytesLE hdr = enc.length := by
    rw [hhdr, fromBytesLE_toBytesLE, Nat.mod_eq_of_lt hsz]
  have hmin1 : min LEN_FIELD_SIZE (stream.length - pre.length) =
      LEN_FIELD_SIZE := by omega
  have hmin2 : min enc.length (stream.length - (pre.length + LEN_FIELD_SIZE)) =
      enc.length := by omega
  simp only [read_next_record, read_internal, htake1, hmin1, hfb, htake2, hmin2,
    hhdrlen, hframe, List.length_append]
  norm_num [LEN_FIELD_SIZE]
  omega

theorem readN_frames (fields : List String) (records : List Record)
    (hsz : ∀ r ∈ records,
      (record_data_to_bin fields r).length < 256 ^ LEN_FIELD_SIZE) :
    ∀ (pre : List Nat),
      readN fields (pre ++ (records.map (writeRecordBytes fields)).flatten)
          pre.length records.length =
        (records.map (fun r => ReadResult.record
            (bin_to_record_data fields (record_data_to_bin fields r))),
         pre.length + ((records.map (writeRecordBytes fields)).flatten).length)
    := by
  induction records with
  | nil => intro pre; simp [readN]
  | cons r rs ih =>
    intro pre
    have hszr := hsz r (List.mem_cons_self r rs)
    have hszrs : ∀ q ∈ rs,
        (record_data_to_bin fields q).length < 256 ^ LEN_FIELD_SIZE :=
      fun q hq => hsz q (List.mem_cons_of_mem r hq)
    simp only [List.map_cons, List.flatten_cons, List.length_cons, readN]
    rw [read_next_record_frame fields r pre
      ((rs.map (writeRecordBytes fields)).flatten) hszr]
    have hpre' : pre.length + (writeRecordBytes fields r).length =
        (pre ++ writeRecordBytes fields r).length := by simp
    have hstream' : pre ++ (writeRecordBytes fields r ++
        (rs.map (writeRecordBytes fields)).flatten) =
        (pre ++ writeRecordBytes fields r) ++
          (rs.map (writeRecordBytes fields)).flatten := by
      rw [List.append_assoc]
    rw [hpre', hstream', ih hszrs (pre ++ writeRecordBytes fields r)]
    simp
    omega

/-! ## Padding and cipher lemmas -/

theorem unpad_pad (data : List Nat) (bs : Nat) (hbs : 0 < bs) :
    unpad (pad data bs) bs = some data := by
  have hmodlt : data.length % bs < bs := Nat.mod_lt _ hbs
  set k := bs - data.length % bs with hk
  have hk1 : 1 ≤ k := by omega
  have hkbs : k ≤ bs := by omega
  have hpad : pad data bs = data ++ List.replicate k k := rfl
  have hlen : (pad data bs).length = data.length + k := by
    rw [hpad]; simp
  have hmod : (pad data bs).length % bs = 0 := by
    rw [hlen]
    have hdm := Nat.mod_add_div data.length bs
    have : data.length + k = bs * (data.length / bs + 1) := by
      rw [Nat.mul_add, Nat.mul_one]; omega
    rw [this]; exact Nat.mul_mod_right _ _
  have hrep : ∀ (n a : Nat), 1 ≤ n →
      List.replicate n a = List.replicate (n - 1) a ++ [a] := by
    intro n a hn
    cases n with
    | zero => omega
    | succ m => simp [List.replicate_succ']
  have hlast : (pad data bs).getLast?.getD 0 = k := by
    rw [hpad, hrep k k hk1, ← List.append_assoc, List.getLast?_concat]
    rfl
  have hdrop : (pad data bs).drop ((pad data bs).length - k) =
      List.replicate k k := by
    rw [hlen, Nat.add_sub_cancel, hpad]
    exact List.drop_left _ _
  have htake : (pad data bs).take ((pad data bs).length - k) = data := by
    rw [hlen, Nat.add_sub_cancel, hpad]
    exact List.take_left _ _
  unfold unpad
  rw [hlast]
  split_ifs with h1 h2 h3 h4
  · rw [hlen] at h1; omega
  · exact absurd hmod h2
  · rcases h3 with h3 | h3
    · omega
    · rw [hlen] at h3; omega
  · exact absurd hdrop h4
  · rw [htake]

theorem pad_bytes_lt (data : List Nat) (bs : Nat) (hbs : bs ≤ 255)
    (hd : ∀ b ∈ data, b < 256) : ∀ b ∈ pad data bs, b < 256 := by
  intro b hb
  have hpad : pad data bs = data ++
      List.replicate (bs - data.length % bs) (bs - data.length % bs) := rfl
  rw [hpad] at hb
  rcases List.mem_append.mp hb with h | h
  · exact hd b h
  · have := List.eq_of_mem_replicate h
    subst this
    omega

theorem shift_roundtrip (key p : List Nat) (hp : ∀ b ∈ p, b < 256) :
    shift_decrypt key (shift_encrypt key p) = p := by
  apply List.ext_getElem
  · simp only [shift_decrypt, shift_encrypt, List.length_mapIdx]
  · intro n h1 h2
    simp only [shift_decrypt, shift_encrypt, List.getElem_mapIdx]
    have hb : p[n] < 256 := hp _ (List.getElem_mem h2)
    omega

theorem xor_roundtrip (key p : List Nat) :
    xor_decrypt key (xor_encrypt key p) = p := by
  apply List.ext_getElem
  · simp [xor_decrypt, xor_encrypt]
  · intro n h1 h2
    simp only [xor_decrypt, xor_encrypt, List.getElem_mapIdx]
    exact Nat.xor_cancel_right _ _

theorem manager_roundtrip (c : Cipher) (hc : ∀ x, c.dec (c.enc x) = x)
    (bs : Nat) (hbs : 0 < bs) (p : List Nat) :
    manager_decrypt c bs (manager_encrypt c bs p) = some p := by
  unfold manager_encrypt manager_decrypt
  rw [hc, unpad_pad p bs hbs]

/-! ## `InMemDatastore` lemmas -/

theorem inmem_write_pending {α : Type} (w : InMemWorld α) (i : Nat) (r : α) :
    inmem_pending (inmem_write w i r) i = inmem_pending w i + 1 := by
  simp [inmem_write, inmem_pending]

theorem inmem_write_list_cons {α : Type} (w : InMemWorld α) (i : Nat) (r : α)
    (rs : List α) :
    inmem_write_list w i (r :: rs) = inmem_write_list (inmem_write w i r) i rs :=
  rfl

theorem inmem_write_list_spec {α : Type} (rs : List α) :
    ∀ (w : InMemWorld α) (i : Nat),
      (inmem_write_list w i rs).data = w.data ++ rs ∧
      (inmem_write_list w i rs).counts i = w.counts i + rs.length := by
  induction rs with
  | nil => intro w i; simp [inmem_write_list]
  | cons r rs ih =>
    intro w i
    obtain ⟨h1, h2⟩ := ih (inmem_write w i r) i
    rw [inmem_write_list_cons]
    constructor
    · rw [h1]; simp [inmem_write]
    · rw [h2]; simp [inmem_write]; omega

theorem inmem_reads_spec {α : Type} :
    ∀ (k : Nat) (w : InMemWorld α) (i : Nat),
      k ≤ w.counts i → k ≤ w.data.length →
      (inmem_reads i w k).1 = (w.data.take k).map ReadOut.got ∧
      (inmem_reads i w k).2.data = w.data.drop k ∧
      (inmem_reads i w k).2.counts i = w.counts i - k := by
  intro k
  induction k with
  | zero => intro w i _ _; exact ⟨rfl, rfl, by simp [inmem_reads]⟩
  | succ k ih =>
    intro w i hc hd
    obtain ⟨a, rest, hdata⟩ : ∃ a rest, w.data = a :: rest := by
      cases hw : w.data with
      | nil => rw [hw] at hd; simp at hd
      | cons a rest => exact ⟨a, rest, rfl⟩
    have hc0 : ¬ (w.counts i = 0) := by omega
    have hread : inmem_read w i =
        (.got a, ⟨rest, Function.update w.counts i (w.counts i - 1)⟩) := by
      unfold inmem_read
      rw [if_neg hc0, hdata]
    have h1 : k ≤ (Function.update w.counts i (w.counts i - 1)) i := by
      simp; omega
    have h2 : k ≤ rest.length := by
      rw [hdata] at hd; simp at hd; omega
    obtain ⟨ha, hb, hc'⟩ :=
      ih ⟨rest, Function.update w.counts i (w.counts i - 1)⟩ i h1 h2
    simp only [inmem_reads]
    rw [hread]
    refine ⟨?_, ?_, ?_⟩
    · rw [hdata]
      simp only [List.take_succ_cons, List.map_cons]
      rw [← ha]
    · rw [hdata]
      simp only [List.drop_succ_cons]
      rw [← hb]
    · rw [hc']
      simp
      omega

/-! ## `FileDatastore` write-side lemmas -/

theorem write_internal_num (N : Nat) (st : FileWriteState) (d : List Nat) :
    (write_internal N st d).num_records = st.num_records + 1 := rfl

theorem write_internal_flushes (N : Nat) (st : FileWriteState) (d : List Nat)
    (hinv : st.flushes = if 0 < N then st.num_records / N else 0) :
    (write_internal N st d).flushes =
      if 0 < N then (st.num_records + 1) / N else 0 := by
  by_cases hN : 0 < N
  · simp only [write_internal, hinv, if_pos hN]
    rw [Nat.succ_div]
    by_cases hdvd : N ∣ st.num_records + 1
    · have hmod : (st.num_records + 1) % N = 0 :=
        Nat.dvd_iff_mod_eq_zero.mp hdvd
      simp [hN, hmod, hdvd]
    · have hmod : ¬ ((st.num_records + 1) % N = 0) :=
        fun h => hdvd (Nat.dvd_of_mod_eq_zero h)
      simp [hN, hmod, hdvd]
  · simp [write_internal, hinv, hN]

theorem file_write_records_spec (fields : List String) (N : Nat)
    (records : List Record) :
    ∀ st : FileWriteState,
      st.flushes = (if 0 < N then st.num_records / N else 0) →
      (file_write_records fields N st records).num_records =
          st.num_records + 2 * records.length ∧
      (file_write_records fields N st records).flushes =
        (if 0 < N then (st.num_records + 2 * records.length) / N else 0) := by
  induction records with
  | nil => intro st h; simpa [file_write_records] using h
  | cons r rs ih =>
    intro st hinv
    have hfold : file_write_records fields N st (r :: rs) =
        file_write_records fields N (file_write_record fields N st r) rs := rfl
    have hn1 : (file_write_record fields N st r).num_records =
        st.num_records + 1 + 1 := rfl
    have hf1 : (file_write_record fields N st r).flushes =
        if 0 < N then (st.num_records + 1 + 1) / N else 0 := by
      unfold file_write_record
      rw [write_internal_flushes N _ _
        (write_internal_flushes N st _ hinv), write_internal_num]
    obtain ⟨ha, hb⟩ := ih (file_write_record fields N st r) (by rw [hf1, hn1])
    have harith : st.num_records + 1 + 1 + 2 * rs.length =
        st.num_records + 2 * (rs.length + 1) := by omega
    constructor
    · rw [hfold, ha, hn1, List.length_cons]
      omega
    · rw [hfold, hb, hn1, List.length_cons, harith]

/-! ## Reading at an offset, and truncated frames -/

theorem read_next_record_shift (fields : List String) (pre bin : List Nat)
    (pos : Nat) :
    read_next_record fields (pre ++ bin) (pre.length + pos) =
      ((read_next_record fields bin pos).1,
       pre.length + (read_next_record fields bin pos).2) := by
  have hdrop : ∀ j, (pre ++ bin).drop (pre.length + j) = bin.drop j :=
    fun j => List.drop_append j
  have hsub : ∀ j, (pre ++ bin).length - (pre.length + j) = bin.length - j := by
    intro j; simp; omega
  simp only [read_next_record, read_internal, hdrop, hsub, Nat.add_assoc]
  split
  · rfl
  · split
    · rfl
    · split
      · rfl
      · rfl

theorem read_truncated_frame (fields : List String) (record : Record) (t : Nat)
    (ht1 : 1 ≤ t) (ht3 : t ≤ 3)
    (hsz : (record_data_to_bin fields record).length < 256 ^ LEN_FIELD_SIZE) :
    (read_next_record fields
        ((writeRecordBytes fields record).take
          ((writeRecordBytes fields record).length - t)) 0).1 = .corruption := by
  set enc := record_data_to_bin fields record with henc
  set hdr := toBytesLE LEN_FIELD_SIZE enc.length with hhdr
  have hhdrlen : hdr.length = LEN_FIELD_SIZE := toBytesLE_length _ _
  have hframe : writeRecordBytes fields record = hdr ++ enc := rfl
  have hflen : (writeRecordBytes fields record).length =
      LEN_FIELD_SIZE + enc.length := by
    rw [hframe]; simp [hhdrlen]
  set trunc := (writeRecordBytes fields record).take
    ((writeRecordBytes fields record).length - t) with htrunc
  have htlen : trunc.length = LEN_FIELD_SIZE + enc.length - t := by
    rw [htrunc, List.length_take, hflen]
    omega
  have hL4 : (4 : Nat) = LEN_FIELD_SIZE := rfl
  by_cases hcase : t ≤ enc.length
  · -- the header survives; the payload is short
    have hhdrtake : (trunc.drop 0).take LEN_FIELD_SIZE = hdr := by
      rw [List.drop_zero, htrunc, List.take_take]
      have hmin : min LEN_FIELD_SIZE
          ((writeRecordBytes fields record).length - t) = LEN_FIELD_SIZE := by
        rw [hflen]; norm_num [LEN_FIELD_SIZE]; omega
      rw [hmin, hframe]
      exact List.take_left' hhdrlen
    have hfb : fromBytesLE hdr = enc.length := by
      rw [hhdr, fromBytesLE_toBytesLE, Nat.mod_eq_of_lt hsz]
    have hlen1 : ((trunc.drop 0).take LEN_FIELD_SIZE).length = LEN_FIELD_SIZE := by
      rw [hhdrtake, hhdrlen]
    simp only [read_next_record, read_internal, hhdrtake, hhdrlen, hfb]
    have hc1 : ¬ (LEN_FIELD_SIZE = 0) := by norm_num [LEN_FIELD_SIZE]
    have hc2 : ¬ (LEN_FIELD_SIZE < LEN_FIELD_SIZE) := lt_irrefl _
    rw [if_neg hc1, if_neg hc2]
    have hbodylen : ((trunc.drop (0 + min LEN_FIELD_SIZE (trunc.length - 0))).take
        enc.length).length = enc.length - t := by
      rw [List.length_take, List.length_drop, htlen]
      norm_num [LEN_FIELD_SIZE]
      omega
    have hne : ((trunc.drop (0 + min LEN_FIELD_SIZE (trunc.length - 0))).take
        enc.length).length ≠ enc.length := by
      rw [hbodylen]; omega
    rw [if_pos hne]
  · -- the header itself is truncated to 1-3 bytes
    have hlen1 : ((trunc.drop 0).take LEN_FIELD_SIZE).length = trunc.length := by
      rw [List.drop_zero, List.length_take, htlen]
      norm_num [LEN_FIELD_SIZE]
      omega
    simp only [read_next_record, read_internal]
    have hc1 : ¬ (((trunc.drop 0).take LEN_FIELD_SIZE).length = 0) := by
      rw [hlen1, htlen]; norm_num [LEN_FIELD_SIZE]; omega
    have hc2 : ((trunc.drop 0).take LEN_FIELD_SIZE).length < LEN_FIELD_SIZE := by
      rw [hlen1, htlen]; norm_num [LEN_FIELD_SIZE]; omega
    rw [if_neg hc1, if_pos hc2]

/-! ## `SplitFilesDatastore` lemmas -/

theorem split_write_records_succ (S : Nat) (dir pre post : String)
    (st : SplitState) (k : Nat) :
    split_write_records S dir pre post st (k + 1) =
      split_write_record S dir pre post (split_write_records S dir pre post st k)
    := rfl

theorem split_state_spec (S : Nat) (dir pre post : String) (hS : 0 < S) :
    ∀ K : Nat, 0 < K →
      split_write_records S dir pre post initSplitState K =
        ⟨K, some (shardName dir pre post (1 + (K - 1) / S),
                  K - ((K - 1) / S) * S),
         (List.range ((K - 1) / S)).map
           (fun j => (shardName dir pre post (1 + j), S))⟩ := by
  intro K
  induction K with
  | zero => intro h; omega
  | succ K ih =>
    intro _
    by_cases hK : K = 0
    · subst hK
      simp [split_write_records, split_write_record, initSplitState,
        Nat.zero_div, Nat.zero_mod, hS]
    · have hK0 : 0 < K := Nat.pos_of_ne_zero hK
      rw [split_write_records_succ, ih hK0]
      have hdm := Nat.div_add_mod K S
      have hidx : (K + 1) - 1 = K := rfl
      by_cases hmod : K % S = 0
      · -- a new shard opens: the K-th write starts batch K/S + 1
        have hdvd : S ∣ K := Nat.dvd_of_mod_eq_zero hmod
        obtain ⟨q, hq⟩ := hdvd
        have hqpos : 0 < q := by
          rcases Nat.eq_zero_or_pos q with h | h
          · subst h; omega
          · exact h
        have hKq : K / S = q := by rw [hq, Nat.mul_div_cancel_left q hS]
        have hmulsub : S * (q - 1) = S * q - S := by
          rw [Nat.mul_sub, Nat.mul_one]
        have hmulge : S ≤ S * q := Nat.le_mul_of_pos_right S hqpos
        have hK1 : K - 1 = (S - 1) + S * (q - 1) := by omega
        have hK1q : (K - 1) / S = q - 1 := by
          rw [hK1, Nat.add_mul_div_left _ _ hS,
            Nat.div_eq_of_lt (by omega), Nat.zero_add]
        have hopen : K - ((K - 1) / S) * S = S := by
          rw [hK1q]
          have hcomm : (q - 1) * S = S * (q - 1) := Nat.mul_comm _ _
          omega
        unfold split_write_record
        rw [if_pos hmod]
        have hrange : (List.range ((K - 1) / S)).map
              (fun j => (shardName dir pre post (1 + j), S)) ++
            [(shardName dir pre post (1 + (K - 1) / S),
              K - ((K - 1) / S) * S)] =
            (List.range (K / S)).map
              (fun j => (shardName dir pre post (1 + j), S)) := by
          rw [hopen, hK1q, hKq]
          rw [show q = (q - 1) + 1 by omega, List.range_succ, List.map_append]
          simp
        have hno : K + 1 - (K / S) * S = 1 := by
          rw [hKq]
          have hcomm : q * S = S * q := Nat.mul_comm _ _
          omega
        simp only [hidx]
        rw [hno, hrange]
      · -- the write goes to the currently open shard
        have hmodpos : 0 < K % S := Nat.pos_of_ne_zero hmod
        have hmodlt : K % S < S := Nat.mod_lt _ hS
        have hK1q : (K - 1) / S = K / S := by
          have h1 : K - 1 = (K % S - 1) + S * (K / S) := by omega
          rw [h1, Nat.add_mul_div_left _ _ hS,
            Nat.div_eq_of_lt (by omega), Nat.zero_add]
        unfold split_write_record
        rw [if_neg hmod]
        simp only [hidx, hK1q]
        have hcnt : K - (K / S) * S + 1 = K + 1 - (K / S) * S := by
          have hcomm : (K / S) * S = S * (K / S) := Nat.mul_comm _ _
          omega
        rw [hcnt]

/-! ## `EncryptionManager` key-lifecycle lemmas -/

theorem em_encryptN_fixed (supply : Nat → List Nat) (k : List Nat) (n : Nat) :
    em_encryptN supply (em_init supply (some k)) n = ⟨false, k, 0⟩ := by
  induction n with
  | zero => rfl
  | succ n ih => simp [em_encryptN, em_encrypt, ih]

theorem em_encryptN_rotating (supply : Nat → List Nat) (n : Nat) :
    em_encryptN supply (em_init supply none) n = ⟨true, supply n, n + 1⟩ := by
  induction n with
  | zero => rfl
  | succ n ih => simp [em_encryptN, em_encrypt, ih]

/-! ## `eraseField` lookup lemmas -/

theorem eraseField_cons_self (k : String) (v : FieldValue) (rest : Record) :
    eraseField ((k, v) :: rest) k = eraseField rest k := by
  simp [eraseField, List.filter_cons]

theorem eraseField_cons_ne (k : String) (v : FieldValue) (rest : Record)
    (f : String) (hk : k ≠ f) :
    eraseField ((k, v) :: rest) f = (k, v) :: eraseField rest f := by
  simp [eraseField, List.filter_cons, hk]

theorem lookup_eraseField_self (record : Record) (f : String) :
    (eraseField record f).lookup f = none := by
  induction record with
  | nil => rfl
  | cons kv rest ih =>
    obtain ⟨k, v⟩ := kv
    by_cases hk : k = f
    · subst hk
      rw [eraseField_cons_self]
      exact ih
    · rw [eraseField_cons_ne k v rest f hk, List.lookup_cons]
      have hbe : (f == k) = false := by
        simp only [beq_eq_false_iff_ne, ne_eq]
        exact fun h => hk h.symm
      simp only [hbe]
      exact ih

theorem lookup_eraseField_ne (record : Record) (f g : String) (h : g ≠ f) :
    (eraseField record f).lookup g = record.lookup g := by
  induction record with
  | nil => rfl
  | cons kv rest ih =>
    obtain ⟨k, v⟩ := kv
    by_cases hk : k = f
    · subst hk
      rw [eraseField_cons_self, ih, List.lookup_cons]
      have hbe : (g == k) = false := by
        simp only [beq_eq_false_iff_ne, ne_eq]
        exact h
      simp only [hbe]
    · rw [eraseField_cons_ne k v rest f hk, List.lookup_cons, List.lookup_cons]
      cases hbe : (g == k)
      · simp only [hbe]
        exact ih
      · simp only [hbe]

/-! ## Last-shard arithmetic -/

theorem last_shard_count (S K : Nat) (hS : 0 < S) (hK : 0 < K) :
    K - ((K - 1) / S) * S = if K % S = 0 then S else K % S := by
  have hdm := Nat.div_add_mod K S
  have hmodlt : K % S < S := Nat.mod_lt _ hS
  by_cases hmod : K % S = 0
  · rw [if_pos hmod]
    have hq1 : 1 ≤ K / S := by
      rcases Nat.eq_zero_or_pos (K / S) with h | h
      · rw [h] at hdm; omega
      · exact h
    have hsub : S * (K / S - 1) = S * (K / S) - S := by
      rw [Nat.mul_sub, Nat.mul_one]
    have hge : S ≤ S * (K / S) := Nat.le_mul_of_pos_right S hq1
    have hK1 : K - 1 = (S - 1) + S * (K / S - 1) := by omega
    have h1 : (K - 1) / S = K / S - 1 := by
      rw [hK1, Nat.add_mul_div_left _ _ hS, Nat.div_eq_of_lt (by omega),
        Nat.zero_add]
    rw [h1]
    have hcomm : (K / S - 1) * S = S * (K / S - 1) := Nat.mul_comm _ _
    omega
  · rw [if_neg hmod]
    have h1 : K - 1 = (K % S - 1) + S * (K / S) := by omega
    have h2 : (K - 1) / S = K / S := by
      rw [h1, Nat.add_mul_div_left _ _ hS, Nat.div_eq_of_lt (by omega),
        Nat.zero_add]
    rw [h2]
    have hcomm : (K / S) * S = S * (K / S) := Nat.mul_comm _ _
    omega

/-! ## Claim theorems -/

/-- Looking up a schema field whose written payload is nonempty in the
decoded association list returns exactly that payload. -/
theorem lookup_decoded_of_mem (fields : List String) (record : Record)
    (f : String) (hf : f ∈ fields) (hne : fieldBytes record f ≠ []) :
    (fields.filterMap (fun g =>
      if fieldBytes record g = [] then none
      else some (g, fieldBytes record g))).lookup f =
      some (fieldBytes record f) := by
  induction fields with
  | nil => cases hf
  | cons g gs ih =>
    rw [List.filterMap_cons]
    by_cases hge : fieldBytes record g = []
    · simp only [if_pos hge]
      by_cases hg : g = f
      · subst hg
        exact absurd hge hne
      · rcases List.mem_cons.mp hf with h | h
        · exact absurd h.symm hg
        · exact ih h
    · simp only [if_neg hge]
      rw [List.lookup_cons]
      by_cases hg : g = f
      · subst hg
        simp
      · have hbe : (f == g) = false := by
          simp only [beq_eq_false_iff_ne, ne_eq]
          exact fun h => hg h.symm
        simp only [hbe]
        rcases List.mem_cons.mp hf with h | h
        · exact absurd h.symm hg
        · exact ih h

/-- C1 counterexample: the round-trip claim, as stated over every record of
text or binary values, is false at an empty text value.  Over the schema
`["a"]` the record `{"a": ""}` maps a subset of the schema names to a text
value and encodes below the maximum, the field `"a"` is present in the
written record, yet it is absent from the decoded record — the decoded field
values do not match the written ones. -/
theorem codec_roundtrip_counterexample :
    ([("a", FieldValue.text "")] : Record).lookup "a" =
        some (FieldValue.text "") ∧
    (record_data_to_bin ["a"] [("a", FieldValue.text "")]).length <
      MAX_RECORD_SIZE ∧
    (bin_to_record_data ["a"] (record_data_to_bin ["a"]
      [("a", FieldValue.text "")])).lookup "a" = none := by
  decide

/-- C1 amended: for every schema (an ordered list of unique field names) and
every record mapping a subset of those names to text or binary values, each
with a nonempty promoted payload, whose encoded size is below the maximum,
encoding then decoding over the same schema recovers the record exactly:
every field written with value `v` is present in the decoded record with
exactly the promoted bytes of `v` (text promoted to its UTF-8 bytes), and
every field absent in the written record is absent in the decoded record. -/
theorem codec_roundtrip_amended (fields : List String) (record : Record)
    (_hnodup : fields.Nodup)
    (hsub : ∀ kv ∈ record, kv.1 ∈ fields)
    (hnonempty : ∀ kv ∈ record, FieldValue.toBytes kv.2 ≠ [])
    (hsize : (record_data_to_bin fields record).length < MAX_RECORD_SIZE) :
    ∀ f : String,
      (∀ v, record.lookup f = some v →
        (bin_to_record_data fields
          (record_data_to_bin fields record)).lookup f = some v.toBytes) ∧
      (record.lookup f = none →
        (bin_to_record_data fields
          (record_data_to_bin fields record)).lookup f = none) := by
  have hsz : ∀ g ∈ fields, (fieldBytes record g).length < 256 ^ LEN_FIELD_SIZE :=
    fun g hg => fieldBytes_lt_of_encoded_lt fields record g hg hsize
  intro f
  rw [decoded_record_eq fields record hsz]
  constructor
  · intro v hv
    have hmem := lookup_eq_some_mem record f v hv
    have hfin : f ∈ fields := hsub (f, v) hmem
    have hfb : fieldBytes record f = v.toBytes := by
      unfold fieldBytes
      rw [hv]
    have hne : fieldBytes record f ≠ [] := by
      rw [hfb]
      exact hnonempty (f, v) hmem
    rw [lookup_decoded_of_mem fields record f hfin hne, hfb]
  · intro hnone
    apply lookup_eq_none_of_forall
    intro p hp
    rw [List.mem_filterMap] at hp
    obtain ⟨g, _, hgw⟩ := hp
    by_cases hemp : fieldBytes record g = []
    · rw [if_pos hemp] at hgw
      cases hgw
    · rw [if_neg hemp] at hgw
      have hpair : (g, fieldBytes record g) = p := Option.some.inj hgw
      rw [← hpair]
      intro hgf
      apply hemp
      have : g = f := hgf
      rw [this, fieldBytes, hnone]

/-- Witness for the amended C1 at a concrete schema and record: the written
binary field is recovered exactly, and the unwritten field stays absent. -/
theorem codec_roundtrip_amended_witness :
    (["a", "b"] : List String).Nodup ∧
    (∀ kv ∈ ([("a", FieldValue.binary [1, 2])] : Record), kv.1 ∈ ["a", "b"]) ∧
    (∀ kv ∈ ([("a", FieldValue.binary [1, 2])] : Record),
      FieldValue.toBytes kv.2 ≠ []) ∧
    (record_data_to_bin ["a", "b"]
      [("a", FieldValue.binary [1, 2])]).length < MAX_RECORD_SIZE ∧
    ((∀ v, ([("a", FieldValue.binary [1, 2])] : Record).lookup "a" = some v →
        (bin_to_record_data ["a", "b"] (record_data_to_bin ["a", "b"]
          [("a", FieldValue.binary [1, 2])])).lookup "a" =
          some v.toBytes) ∧
      (([("a", FieldValue.binary [1, 2])] : Record).lookup "a" = none →
        (bin_to_record_data ["a", "b"] (record_data_to_bin ["a", "b"]
          [("a", FieldValue.binary [1, 2])])).lookup "a" = none)) ∧
    ((∀ v, ([("a", FieldValue.binary [1, 2])] : Record).lookup "b" = some v →
        (bin_to_record_data ["a", "b"] (record_data_to_bin ["a", "b"]
          [("a", FieldValue.binary [1, 2])])).lookup "b" =
          some v.toBytes) ∧
      (([("a", FieldValue.binary [1, 2])] : Record).lookup "b" = none →
        (bin_to_record_data ["a", "b"] (record_data_to_bin ["a", "b"]
          [("a", FieldValue.binary [1, 2])])).lookup "b" = none)) :=
  ⟨by decide, by decide, by decide, by decide,
   codec_roundtrip_amended ["a", "b"] [("a", FieldValue.binary [1, 2])]
     (by decide) (by decide) (by decide) (by decide) "a",
   codec_roundtrip_amended ["a", "b"] [("a", FieldValue.binary [1, 2])]
     (by decide) (by decide) (by decide) (by decide) "b"⟩

/-- C8 counterexample: a record holding a single binary field of
`__MAX_RECORD_SIZE` bytes encodes to `4 + __MAX_RECORD_SIZE` bytes — not
smaller than the maximum — and the encoding carries the field in full:
nothing is truncated and no error is raised, because Python `bytearray`
slice assignment grows the preallocated buffer. -/
theorem max_size_counterexample :
    ¬ ((record_data_to_bin ["a"]
        [("a", FieldValue.binary (List.replicate MAX_RECORD_SIZE 1))]).length <
      MAX_RECORD_SIZE) ∧
    record_data_to_bin ["a"]
        [("a", FieldValue.binary (List.replicate MAX_RECORD_SIZE 1))] =
      toBytesLE LEN_FIELD_SIZE MAX_RECORD_SIZE ++
        List.replicate MAX_RECORD_SIZE 1 := by
  have hchunk : fieldChunk
      [("a", FieldValue.binary (List.replicate MAX_RECORD_SIZE 1))] "a" =
      toBytesLE LEN_FIELD_SIZE MAX_RECORD_SIZE ++
        List.replicate MAX_RECORD_SIZE 1 := by
    simp [fieldChunk, List.lookup, FieldValue.toBytes]
  have henc := record_data_to_bin_eq ["a"]
    [("a", FieldValue.binary (List.replicate MAX_RECORD_SIZE 1))]
  constructor
  · rw [henc]
    simp only [List.map_cons, List.map_nil, List.flatten_cons, List.flatten_nil,
      List.append_nil, hchunk, List.length_append, toBytesLE_length,
      List.length_replicate]
    norm_num [LEN_FIELD_SIZE]
  · rw [henc]
    simp only [List.map_cons, List.map_nil, List.flatten_cons, List.flatten_nil,
      List.append_nil, hchunk]

/-- C8 amended: every record — of any size — is encoded in full, as the
concatenation of one 4-byte-length-plus-payload chunk per schema field; when
the encoded form exceeds the preallocated maximum buffer size the buffer
grows, and the encoder neither truncates trailing fields nor raises. -/
theorem encoder_never_truncates (fields : List String) (record : Record) :
    record_data_to_bin fields record =
      (fields.map (fieldChunk record)).flatten ∧
    (record_data_to_bin fields record).length =
      (fields.map (fun f => LEN_FIELD_SIZE + (fieldBytes record f).length)).sum
    :=
  ⟨record_data_to_bin_eq fields record, encoded_length_eq fields record⟩

/-- C9: a field present with a zero-length value is encoded exactly like an
absent field — a 4-byte zero length header and nothing else — the whole
record encodes identically to the record with that field removed, and after
decoding the field is absent. -/
theorem empty_value_collapse (fields : List String) (record : Record)
    (f : String) (v : FieldValue)
    (hlook : record.lookup f = some v) (hv : v.toBytes = [])
    (hsize : (record_data_to_bin fields record).length < MAX_RECORD_SIZE) :
    fieldChunk record f = toBytesLE LEN_FIELD_SIZE 0 ∧
    record_data_to_bin fields record =
      record_data_to_bin fields (eraseField record f) ∧
    (bin_to_record_data fields (record_data_to_bin fields record)).lookup f =
      none := by
  have hfb : fieldBytes record f = [] := by
    unfold fieldBytes
    rw [hlook]
    exact hv
  refine ⟨?_, ?_, ?_⟩
  · rw [fieldChunk_eq, hfb]
    simp
  · rw [record_data_to_bin_eq, record_data_to_bin_eq]
    congr 1
    refine List.map_congr_left (fun g _ => ?_)
    by_cases hg : g = f
    · subst hg
      rw [fieldChunk_eq, hfb, fieldChunk_eq]
      have : fieldBytes (eraseField record g) g = [] := by
        rw [fieldBytes, lookup_eraseField_self]
      rw [this]
    · rw [fieldChunk_eq, fieldChunk_eq]
      have : fieldBytes (eraseField record f) g = fieldBytes record g := by
        rw [fieldBytes, fieldBytes, lookup_eraseField_ne record f g hg]
      rw [this]
  · have hsz : ∀ g ∈ fields,
        (fieldBytes record g).length < 256 ^ LEN_FIELD_SIZE :=
      fun g hg => fieldBytes_lt_of_encoded_lt fields record g hg hsize
    rw [decoded_record_eq fields record hsz]
    apply lookup_eq_none_of_forall
    intro p hp
    rw [List.mem_filterMap] at hp
    obtain ⟨g, _, hgw⟩ := hp
    by_cases hemp : fieldBytes record g = []
    · rw [if_pos hemp] at hgw
      cases hgw
    · rw [if_neg hemp] at hgw
      have hpair : (g, fieldBytes record g) = p := Option.some.inj hgw
      rw [← hpair]
      intro hgf
      apply hemp
      have hgf' : g = f := hgf
      rw [hgf', hfb]

/-- Witness for C9: an empty text value collapses to an absent field. -/
theorem empty_value_collapse_witness :
    ([("a", FieldValue.text "")] : Record).lookup "a" =
        some (FieldValue.text "") ∧
    (FieldValue.text "").toBytes = [] ∧
    (record_data_to_bin ["a", "b"]
      [("a", FieldValue.text "")]).length < MAX_RECORD_SIZE ∧
    (fieldChunk [("a", FieldValue.text "")] "a" =
        toBytesLE LEN_FIELD_SIZE 0 ∧
      record_data_to_bin ["a", "b"] [("a", FieldValue.text "")] =
        record_data_to_bin ["a", "b"]
          (eraseField [("a", FieldValue.text "")] "a") ∧
      (bin_to_record_data ["a", "b"] (record_data_to_bin ["a", "b"]
        [("a", FieldValue.text "")])).lookup "a" = none) :=
  ⟨by decide, by decide, by decide,
   empty_value_collapse ["a", "b"] [("a", FieldValue.text "")] "a"
     (FieldValue.text "") (by decide) (by decide) (by decide)⟩

/-- C2: Outer-frame read semantics.  `read_next_record` first requests 4
header bytes: zero bytes obtained is the end-of-stream signal (never an
error), 1-3 bytes is a corruption error; otherwise it requests exactly the
decoded length of payload bytes and fails with a corruption error when fewer
are obtained.  In particular, truncating a stored frame by 1-3 tail bytes
makes the read at that frame's position fail with a corruption error. -/
theorem outer_frame_read_semantics (fields : List String) (stream : List Nat)
    (pos : Nat) :
    (stream.length ≤ pos →
      read_next_record fields stream pos = (.endOfStream, pos)) ∧
    (0 < stream.length - pos → stream.length - pos < LEN_FIELD_SIZE →
      (read_next_record fields stream pos).1 = .corruption) ∧
    (LEN_FIELD_SIZE ≤ stream.length - pos →
      stream.length - (pos + LEN_FIELD_SIZE) <
          fromBytesLE ((stream.drop pos).take LEN_FIELD_SIZE) →
      (read_next_record fields stream pos).1 = .corruption) ∧
    (∀ (pre : List Nat) (record : Record) (t : Nat), 1 ≤ t → t ≤ 3 →
      (record_data_to_bin fields record).length < MAX_RECORD_SIZE →
      (read_next_record fields
          (pre ++ (writeRecordBytes fields record).take
            ((writeRecordBytes fields record).length - t)) pre.length).1 =
        .corruption) := by
  refine ⟨?_, ?_, ?_, ?_⟩
  · intro h
    exact read_next_record_eos fields stream pos h
  · intro h0 h4
    have hlen : ((stream.drop pos).take LEN_FIELD_SIZE).length =
        stream.length - pos := by
      rw [List.length_take, List.length_drop]
      omega
    simp only [read_next_record, read_internal]
    rw [if_neg (by rw [hlen]; omega), if_pos (by rw [hlen]; exact h4)]
  · intro h4 hshort
    have hlen : ((stream.drop pos).take LEN_FIELD_SIZE).length =
        LEN_FIELD_SIZE := by
      rw [List.length_take, List.length_drop]
      omega
    have hmin1 : min LEN_FIELD_SIZE (stream.length - pos) = LEN_FIELD_SIZE := by
      omega
    simp only [read_next_record, read_internal, hlen, hmin1]
    rw [if_neg (by norm_num [LEN_FIELD_SIZE]), if_neg (lt_irrefl _)]
    have hblen : ((stream.drop (pos + LEN_FIELD_SIZE)).take
        (fromBytesLE ((stream.drop pos).take LEN_FIELD_SIZE))).length ≠
        fromBytesLE ((stream.drop pos).take LEN_FIELD_SIZE) := by
      rw [List.length_take, List.length_drop]
      omega
    rw [if_pos hblen]
  · intro pre record t ht1 ht3 hsize
    have hsz : (record_data_to_bin fields record).length <
        256 ^ LEN_FIELD_SIZE := by
      have hbig : MAX_RECORD_SIZE < 256 ^ LEN_FIELD_SIZE := by
        norm_num [MAX_RECORD_SIZE, LEN_FIELD_SIZE]
      omega
    have hshift := read_next_record_shift fields pre
      ((writeRecordBytes fields record).take
        ((writeRecordBytes fields record).length - t)) 0
    rw [Nat.add_zero] at hshift
    rw [hshift]
    exact read_truncated_frame fields record t ht1 ht3 hsz

/-- Witness for C2: end-of-stream on an empty stream, corruption on a 2-byte
stream, and corruption after truncating a stored frame by 2 bytes. -/
theorem outer_frame_read_semantics_witness :
    read_next_record ["a"] ([] : List Nat) 0 = (.endOfStream, 0) ∧
    (read_next_record ["a"] [5, 6] 0).1 = .corruption ∧
    (read_next_record ["a"]
        (([] : List Nat) ++ (writeRecordBytes ["a"]
            [("a", FieldValue.binary [1, 2, 3])]).take
          ((writeRecordBytes ["a"]
            [("a", FieldValue.binary [1, 2, 3])]).length - 2))
        (List.length ([] : List Nat))).1 = .corruption :=
  ⟨(outer_frame_read_semantics ["a"] [] 0).1 (by decide),
   (outer_frame_read_semantics ["a"] [5, 6] 0).2.1 (by decide) (by decide),
   (outer_frame_read_semantics ["a"] [] 0).2.2.2 []
     [("a", FieldValue.binary [1, 2, 3])] 2 (by decide) (by decide) (by decide)⟩

/-- C3: Cipher round-trip.  For the manager built over any primitive whose
decrypt inverts its encrypt (the external pycryptodome block ciphers with the
returned nonce/iv, per the specification), decrypting the encryption of any
plaintext reproduces it exactly: padding applied before encryption is removed
after decryption.  The SHIFT and XOR stream variants, embedded from the
source, combine each byte with a cyclically repeated key (modular addition,
respectively exclusive-or) and satisfy `decrypt (encrypt p) = p` for every
byte string `p` and non-empty key, both raw and through the manager. -/
theorem cipher_roundtrip :
    (∀ c : Cipher, (∀ x, c.dec (c.enc x) = x) →
      ∀ bs : Nat, 0 < bs → bs ≤ 255 → ∀ p,
        manager_decrypt c bs (manager_encrypt c bs p) = some p) ∧
    (∀ key p : List Nat, key ≠ [] → (∀ b ∈ p, b < 256) →
      shift_decrypt key (shift_encrypt key p) = p) ∧
    (∀ key p : List Nat, key ≠ [] →
      xor_decrypt key (xor_encrypt key p) = p) ∧
    (∀ (key : List Nat) (bs : Nat) (p : List Nat), key ≠ [] →
      0 < bs → bs ≤ 255 → (∀ b ∈ p, b < 256) →
      manager_decrypt (shiftCipher key) bs
        (manager_encrypt (shiftCipher key) bs p) = some p) ∧
    (∀ (key : List Nat) (bs : Nat) (p : List Nat), key ≠ [] →
      0 < bs → bs ≤ 255 →
      manager_decrypt (xorCipher key) bs
        (manager_encrypt (xorCipher key) bs p) = some p) := by
  refine ⟨?_, ?_, ?_, ?_, ?_⟩
  · intro c hc bs hbs _ p
    exact manager_roundtrip c hc bs hbs p
  · intro key p _ hp
    exact shift_roundtrip key p hp
  · intro key p _
    exact xor_roundtrip key p
  · intro key bs p _ hbs hbs255 hp
    show unpad (shift_decrypt key (shift_encrypt key (pad p bs))) bs = some p
    rw [shift_roundtrip key _ (pad_bytes_lt p bs hbs255 hp), unpad_pad p bs hbs]
  · intro key bs p _ hbs _
    show unpad (xor_decrypt key (xor_encrypt key (pad p bs))) bs = some p
    rw [xor_roundtrip key _, unpad_pad p bs hbs]

/-- Witness for C3 at concrete keys, block size and plaintexts. -/
theorem cipher_roundtrip_witness :
    manager_decrypt (xorCipher [7]) 32
        (manager_encrypt (xorCipher [7]) 32 [1, 2, 3]) = some [1, 2, 3] ∧
    manager_decrypt (shiftCipher [200, 13]) 32
        (manager_encrypt (shiftCipher [200, 13]) 32 []) = some [] ∧
    shift_decrypt [9] (shift_encrypt [9] [0, 255]) = [0, 255] :=
  ⟨cipher_roundtrip.2.2.2.2 [7] 32 [1, 2, 3] (by decide) (by decide) (by decide),
   cipher_roundtrip.2.2.2.1 [200, 13] 32 [] (by decide) (by decide) (by decide)
     (by decide),
   cipher_roundtrip.2.1 [9] [0, 255] (by decide) (by decide)⟩

/-- C4: Key lifecycle.  With a fixed key, `get_key` returns that key before
and after every encrypt, each encrypt uses it, and no random draw ever
happens.  Without a fixed key, one random key is drawn at construction and
one more after every encrypt; after `n` encrypts the held key is the `n`-th
draw of the supply, and `get_key` returns exactly the key the next encrypt
will use. -/
theorem key_lifecycle (supply : Nat → List Nat) (k : List Nat) (n : Nat) :
    (em_get_key (em_encryptN supply (em_init supply (some k)) n) = k ∧
     (em_encrypt supply (em_encryptN supply (em_init supply (some k)) n)).2 =
       k ∧
     (em_encryptN supply (em_init supply (some k)) n).draws = 0) ∧
    (em_get_key (em_encryptN supply (em_init supply none) n) = supply n ∧
     (em_encryptN supply (em_init supply none) n).draws = n + 1 ∧
     (em_encrypt supply (em_encryptN supply (em_init supply none) n)).2 =
       em_get_key (em_encryptN supply (em_init supply none) n)) := by
  constructor
  · rw [em_encryptN_fixed]
    exact ⟨rfl, rfl, rfl⟩
  · rw [em_encryptN_rotating]
    exact ⟨rfl, rfl, rfl⟩

/-- C5: Sharding.  Writing K > 0 records with shard size S > 0 produces
`ceil(K/S)` shard files, in order, named from the directory, the name head,
the 1-based shard number and the name tail; every shard but the last holds
exactly S records and the last holds `K mod S` (or S when S divides K).  At
most one shard is ever open, and each previously open shard is closed before
the next opens (the closed shards accumulate in `closedShards` in closing
order). -/
theorem sharding (S : Nat) (dir pre post : String) (K : Nat)
    (hS : 0 < S) (hK : 0 < K) :
    allShards (split_write_records S dir pre post initSplitState K) =
      (List.range ((K + S - 1) / S)).map
        (fun j => (shardName dir pre post (1 + j),
          if j + 1 = (K + S - 1) / S then
            (if K % S = 0 then S else K % S)
          else S)) := by
  rw [split_state_spec S dir pre post hS K hK]
  have hceil : (K + S - 1) / S = (K - 1) / S + 1 := by
    have h1 : K + S - 1 = (K - 1) + S := by omega
    rw [h1, Nat.add_div_right _ hS]
  rw [hceil]
  unfold allShards
  simp only [List.range_succ, List.map_append, List.map_cons, List.map_nil]
  congr 1
  · refine List.map_congr_left (fun j hj => ?_)
    rw [List.mem_range] at hj
    rw [if_neg (by omega)]
  · simp only [if_true]
    rw [last_shard_count S K hS hK]

/-- Witness for C5: 3 records with shard size 2 give two shards of 2 and 1
records. -/
theorem sharding_witness :
    0 < 2 ∧ 0 < 3 ∧
    allShards (split_write_records 2 "d" "p" ".bin" initSplitState 3) =
      (List.range ((3 + 2 - 1) / 2)).map
        (fun j => (shardName "d" "p" ".bin" (1 + j),
          if j + 1 = (3 + 2 - 1) / 2 then
            (if 3 % 2 = 0 then 2 else 3 % 2)
          else 2)) :=
  ⟨by decide, by decide,
   sharding 2 "d" "p" ".bin" 3 (by decide) (by decide)⟩

/-- C6: FIFO order and pending count.  On a fresh world, one InMemory
instance that writes the records `rs` reads them back in write order; every
write increments that instance's pending count by one, after k reads the
count is `rs.length - k`, after all reads it is 0, and the next read returns
the end-of-stream signal.  The File backend read back over its own byte
stream likewise returns, in write order, exactly the decoding of each written
record, followed by end-of-stream. -/
theorem fifo_order {α : Type} (rs : List α) (fields : List String)
    (records : List Record)
    (hsz : ∀ r ∈ records,
      (record_data_to_bin fields r).length < MAX_RECORD_SIZE) :
    ((inmem_reads 0 (inmem_write_list (initInMemWorld α) 0 rs) rs.length).1 =
        rs.map ReadOut.got ∧
     (∀ (w : InMemWorld α) (i : Nat) (r : α),
        inmem_pending (inmem_write w i r) i = inmem_pending w i + 1) ∧
     (∀ k, k ≤ rs.length →
        ((inmem_reads 0 (inmem_write_list (initInMemWorld α) 0 rs) k).2).counts
          0 = rs.length - k) ∧
     ((inmem_reads 0 (inmem_write_list (initInMemWorld α) 0 rs)
        rs.length).2).counts 0 = 0 ∧
     (inmem_read ((inmem_reads 0 (inmem_write_list (initInMemWorld α) 0 rs)
        rs.length).2) 0).1 = .eos) ∧
    ((readN fields (file_write_all fields records) 0 records.length).1 =
        records.map (fun r => ReadResult.record
          (bin_to_record_data fields (record_data_to_bin fields r))) ∧
     (read_next_record fields (file_write_all fields records)
        (readN fields (file_write_all fields records) 0
          records.length).2).1 = .endOfStream) := by
  obtain ⟨hwd, hwc⟩ := inmem_write_list_spec rs (initInMemWorld α) 0
  have hwd' : (inmem_write_list (initInMemWorld α) 0 rs).data = rs := by
    rw [hwd]
    rfl
  have hwc' : (inmem_write_list (initInMemWorld α) 0 rs).counts 0 = rs.length
    := by
    rw [hwc]
    simp [initInMemWorld]
  have hreads := fun (k : Nat) (h1 : k ≤ rs.length) =>
    inmem_reads_spec k (inmem_write_list (initInMemWorld α) 0 rs) 0
      (by rw [hwc']; exact h1) (by rw [hwd']; exact h1)
  have hbig : MAX_RECORD_SIZE < 256 ^ LEN_FIELD_SIZE := by
    norm_num [MAX_RECORD_SIZE, LEN_FIELD_SIZE]
  have hfile := readN_frames fields records
    (fun r hr => lt_trans (hsz r hr) hbig) []
  rw [List.nil_append, List.length_nil] at hfile
  constructor
  · refine ⟨?_, ?_, ?_, ?_, ?_⟩
    · obtain ⟨h1, _, _⟩ := hreads rs.length le_rfl
      rw [h1, hwd', List.take_length]
    · exact fun w i r => inmem_write_pending w i r
    · intro k hk
      obtain ⟨_, _, h3⟩ := hreads k hk
      rw [h3, hwc']
    · obtain ⟨_, _, h3⟩ := hreads rs.length le_rfl
      rw [h3, hwc', Nat.sub_self]
    · obtain ⟨_, _, h3⟩ := hreads rs.length le_rfl
      have h0 : ((inmem_reads 0 (inmem_write_list (initInMemWorld α) 0 rs)
          rs.length).2).counts 0 = 0 := by
        rw [h3, hwc', Nat.sub_self]
      unfold inmem_read
      rw [if_pos h0]
  · constructor
    · show (readN fields ((records.map (writeRecordBytes fields)).flatten) 0
          records.length).1 = _
      rw [hfile]
    · show (read_next_record fields
          ((records.map (writeRecordBytes fields)).flatten)
          (readN fields ((records.map (writeRecordBytes fields)).flatten) 0
            records.length).2).1 = ReadResult.endOfStream
      rw [hfile]
      rw [read_next_record_eos fields _ _ (by omega)]

/-- Witness for C6 at two in-memory records and one file record. -/
theorem fifo_order_witness :
    (∀ r ∈ ([[("a", FieldValue.binary [1])]] : List Record),
      (record_data_to_bin ["a"] r).length < MAX_RECORD_SIZE) ∧
    (inmem_reads 0 (inmem_write_list (initInMemWorld Nat) 0 [10, 20]) 2).1 =
      [ReadOut.got 10, ReadOut.got 20] ∧
    (readN ["a"] (file_write_all ["a"] [[("a", FieldValue.binary [1])]])
      0 1).1 = [ReadResult.record [("a", [1])]] := by
  refine ⟨by decide, ?_, ?_⟩
  · have h := (fifo_order (α := Nat) [10, 20] ["a"]
      [[("a", FieldValue.binary [1])]] (by decide)).1.1
    simpa using h
  · have h := (fifo_order (α := Nat) [10, 20] ["a"]
      [[("a", FieldValue.binary [1])]] (by decide)).2.1
    have h' : (readN ["a"] (file_write_all ["a"]
        [[("a", FieldValue.binary [1])]]) 0 1).1 =
        List.map (fun r => ReadResult.record
          (bin_to_record_data ["a"] (record_data_to_bin ["a"] r)))
        [[("a", FieldValue.binary [1])]] := h
    rw [h']
    decide

/-- C7 counterexample: with autoflush threshold 2, writing a single record
already triggers a flush — the counter counts `write_internal` calls (two per
record: size header and payload), not records, so a flush fires after the
first record instead of after every 2nd record. -/
theorem autoflush_counterexample :
    (file_write_records ["a"] 2 initFileWriteState
      [[("a", FieldValue.binary [1])]]).flushes = 1 := by
  decide

/-- C7 amended: `__num_records` counts the two `write_internal` calls each
`write_record` makes, so after r records the counter is 2r and, for a
threshold N > 0, exactly `(2 r) / N` automatic flushes have fired — a flush
on every Nth low-level write, not on every Nth record; threshold 0 never
flushes automatically. -/
theorem autoflush_spec (fields : List String) (N : Nat)
    (records : List Record) :
    (file_write_records fields N initFileWriteState records).num_records =
      2 * records.length ∧
    (0 < N →
      (file_write_records fields N initFileWriteState records).flushes =
        2 * records.length / N) ∧
    (N = 0 →
      (file_write_records fields N initFileWriteState records).flushes = 0)
    := by
  obtain ⟨h1, h2⟩ := file_write_records_spec fields N records initFileWriteState
    (by simp [initFileWriteState])
  refine ⟨by simpa [initFileWriteState] using h1, ?_, ?_⟩
  · intro hN
    rw [h2, if_pos hN]
    simp [initFileWriteState]
  · intro hN
    subst hN
    rw [h2]
    simp

/-- Witness for C7's amended statement: threshold 3, two records, four
low-level writes, one flush. -/
theorem autoflush_spec_witness :
    0 < 3 ∧
    (file_write_records ["a"] 3 initFileWriteState
      [[("a", FieldValue.binary [1])], [("a", FieldValue.binary [2])]]).flushes
      = 2 * 2 / 3 :=
  ⟨by decide, by
    have h := (autoflush_spec ["a"] 3
      [[("a", FieldValue.binary [1])], [("a", FieldValue.binary [2])]]).2.1
      (by decide)
    simpa using h⟩

/-- C10: the `InMemDatastore` FIFO queue is one class-level object shared by
all instances, while the pending count is per instance: after instance 0
writes 7 and instance 1 writes 8, a read on instance 1 returns instance 0's
record 7 (not its own 8), and a second read on instance 1 reports
end-of-stream although its own record is still queued. -/
theorem shared_queue_across_instances :
    (inmem_read (inmem_write (inmem_write (initInMemWorld Nat) 0 7) 1 8) 1).1 =
      ReadOut.got 7 ∧
    ¬ (ReadOut.got (α := Nat) 7 = ReadOut.got 8) ∧
    (inmem_write (inmem_write (initInMemWorld Nat) 0 7) 1 8).counts 1 = 1 ∧
    (inmem_read ((inmem_read
      (inmem_write (inmem_write (initInMemWorld Nat) 0 7) 1 8) 1).2) 1).1 =
      ReadOut.eos := by
  decide

end MLCrypto
